import Mathlib

/-!
Shallow embedding of the redaction engine core of `pkg/redact/redact.go`
(package `redact` of the troubleshoot repository).

Streams (`io.Reader`) are modelled as a final drained value: the bytes the
stream yields before end-of-stream plus the terminal error, if any
(`io/ioutil.ReadAll` returns exactly that pair).  Redactor transforms, the
regular-expression engine and the glob engine are external capabilities
(`regexp`, `gobwas/glob`) or constructors that live outside the provided
source; they are abstracted as parameters bundled in `RedactorEnv`, and the
spec-modelled constructors state only what the spec fixes about them
(compile failure behaviour and the identifying name).
-/

namespace Redact

/-- MASK_TEXT constant from the source. -/
def MASK_TEXT : String := "***HIDDEN***"

/-- Redaction record: `{RedactorName, CharactersRemoved, Line, File}`. -/
structure Redaction where
  RedactorName : String
  CharactersRemoved : Int
  Line : Int
  File : String
deriving DecidableEq, Repr

/-- RedactionList: the two index views of the ledger.  Go maps with
`append` on a missing key behave as total maps defaulting to the empty
slice, so each index is modelled as a total function into lists. -/
structure RedactionList where
  ByRedactor : String → List Redaction
  ByFile : String → List Redaction

/-- Drained view of an `io.Reader`: the content it delivers and the
terminal error (`none` = clean end-of-stream). -/
structure Reader where
  content : String
  err : Option String
deriving DecidableEq, Repr

/-- A redactor: carries its identifying name and its stream transform
(method `Redact(input io.Reader) io.Reader` of the `Redactor` interface). -/
structure Redactor where
  name : String
  Redact : Reader → Reader

/-- One entry of `Redact.MultiLine` in a rule specification:
`{selector, redactor}`. -/
structure MultiLineSpec where
  Selector : String
  Redactor : String
deriving DecidableEq, Repr

/-- Custom rule specification (`troubleshootv1beta1.Redact`), with exactly
the fields the redaction code reads: `Name`, `File`, `Files`, `Regex`,
`Values`, `MultiLine`, `Yaml`. -/
structure RedactSpec where
  Name : String
  File : String
  Files : List String
  Regex : List String
  Values : List String
  MultiLine : List MultiLineSpec
  Yaml : List String
deriving DecidableEq, Repr

/-- Empty rule, convenient base for concrete instances. -/
def RedactSpec.empty : RedactSpec :=
  { Name := "", File := "", Files := [], Regex := [], Values := [],
    MultiLine := [], Yaml := [] }

/-- External capabilities the redaction code calls into: the regex
compiler (`regexp.Compile`, `none` = invalid pattern; a compiled pattern
is abstracted as the stream transform it induces), the glob compiler
(`glob.Compile` with separator `/`; a compiled glob is abstracted as its
match predicate), and the transforms of the literal, multi-line and yaml
redactors whose implementations are outside the provided source. -/
structure RedactorEnv where
  compileRegex : String → Option (Reader → Reader)
  compileGlob : String → Option (String → Bool)
  literalTransform : String → Reader → Reader
  multiTransform : (Reader → Reader) → (Reader → Reader) → Reader → Reader
  yamlTransform : String → Reader → Reader

/-- Go `%q` formatting of a string as used by `redactorName`: the value
wrapped in double quotes with backslashes and quotes escaped. -/
def goQuote (s : String) : String :=
  "\"" ++ String.join (s.toList.map (fun c =>
    if c = '\\' then "\\\\"
    else if c = '"' then "\\\""
    else String.singleton c)) ++ "\""

/-- redactorName from the source: a named rule yields `name-<within>`; an
anonymous rule without a literal yields `unnamed-<num>.<within>-<type>`;
otherwise `<type>.<within>-<quoted literal>`. -/
def redactorName (redactorNum : Int) (withinRedactorNum : Nat)
    (redactorName redactorType redactorLiteral : String) : String :=
  if redactorName ≠ "" then
    redactorName ++ "-" ++ toString withinRedactorNum
  else if redactorLiteral = "" then
    "unnamed-" ++ toString redactorNum ++ "." ++ toString withinRedactorNum
      ++ "-" ++ redactorType
  else
    redactorType ++ "." ++ toString withinRedactorNum ++ "-"
      ++ goQuote redactorLiteral

/-- Modelled from the spec: `NewSingleLineRedactor` is not under src/.
Per §4.1 it compiles the pattern, failing with a CompileError exactly when
the pattern is not a valid regular expression, and otherwise yields a
redactor bound to the given name. -/
def NewSingleLineRedactor (env : RedactorEnv)
    (re maskText path name : String) : Except String Redactor :=
  match env.compileRegex re with
  | none => Except.error ("invalid regex " ++ goQuote re)
  | some t => Except.ok { name := name, Redact := t }

/-- Modelled from the spec: `NewMultiLineRedactor` is not under src/.
Per §4.1 the selector and redactor patterns are compiled independently and
each must be valid, else the same CompileError. -/
def NewMultiLineRedactor (env : RedactorEnv)
    (selector redactor maskText path name : String) : Except String Redactor :=
  match env.compileRegex selector with
  | none => Except.error ("invalid regex " ++ goQuote selector)
  | some s =>
    match env.compileRegex redactor with
    | none => Except.error ("invalid regex " ++ goQuote redactor)
    | some r => Except.ok { name := name, Redact := env.multiTransform s r }

/-- Modelled from the spec: `literalString` is not under src/.  Exact
substring replacement cannot fail to build (source calls it without an
error return). -/
def literalString (env : RedactorEnv) (literal path name : String) : Redactor :=
  { name := name, Redact := env.literalTransform literal }

/-- Modelled from the spec: `NewYamlRedactor` is not under src/.  The
source calls it without an error return. -/
def NewYamlRedactor (env : RedactorEnv) (yamlPath path name : String) : Redactor :=
  { name := name, Redact := env.yamlTransform yamlPath }

/-- Compilation of the `redact.Files` glob list, in order, failing on the
first invalid glob (the loop over `redact.Files` in `redactMatchesPath`). -/
def compileGlobList (env : RedactorEnv) : List String → Except String (List (String → Bool))
  | [] => Except.ok []
  | g :: rest =>
    match env.compileGlob g with
    | none => Except.error ("invalid file glob string " ++ goQuote g)
    | some m =>
      match compileGlobList env rest with
      | Except.error e => Except.error e
      | Except.ok ms => Except.ok (m :: ms)

/-- redactMatchesPath from the source: a rule with empty `File` and empty
`Files` matches every path; otherwise every glob is compiled (any failure
aborts with that error) and the rule matches iff some glob matches. -/
def redactMatchesPath (env : RedactorEnv) (path : String) (redact : RedactSpec) :
    Except String Bool :=
  if redact.File = "" && redact.Files.isEmpty then Except.ok true
  else
    let fileGlob : Except String (List (String → Bool)) :=
      if redact.File ≠ "" then
        match env.compileGlob redact.File with
        | none => Except.error ("invalid file glob string " ++ goQuote redact.File)
        | some m => Except.ok [m]
      else Except.ok []
    match fileGlob with
    | Except.error e => Except.error e
    | Except.ok gs0 =>
      match compileGlobList env redact.Files with
      | Except.error e => Except.error e
      | Except.ok gs1 => Except.ok ((gs0 ++ gs1).any (fun m => m path))

/-- The body of `buildAdditionalRedactors` for one matching rule at index
`i` (source lines 106-131): one redactor per `Regex`, `Values`,
`MultiLine` and `Yaml` entry, in that order.  `withinRedactNum` is
initialised to 0 and — as in the source — never incremented. -/
def buildEntriesForRule (env : RedactorEnv) (path : String) (i : Nat)
    (redact : RedactSpec) : Except String (List Redactor) := do
  -- `withinRedactNum` is initialised to 0 in the source and never
  -- incremented, so every call below receives the literal 0.
  let singles ← redact.Regex.mapM (fun re =>
    match NewSingleLineRedactor env re MASK_TEXT path
        (redactorName (Int.ofNat i) 0 redact.Name "regex" "") with
    | Except.error e => Except.error ("redactor " ++ goQuote re ++ ": " ++ e)
    | Except.ok r => Except.ok r)
  let lits := redact.Values.map (fun literal =>
    literalString env literal path
      (redactorName (Int.ofNat i) 0 redact.Name "literal" ""))
  let multis ← redact.MultiLine.mapM (fun re =>
    match NewMultiLineRedactor env re.Selector re.Redactor MASK_TEXT path
        (redactorName (Int.ofNat i) 0 redact.Name "multiLine" "") with
    | Except.error e => Except.error ("multiline redactor: " ++ e)
    | Except.ok r => Except.ok r)
  let yamls := redact.Yaml.map (fun y =>
    NewYamlRedactor env y path
      (redactorName (Int.ofNat i) 0 redact.Name "yaml" ""))
  Except.ok (singles ++ lits ++ multis ++ yamls)

/-- The indexed loop of `buildAdditionalRedactors`: `nil` rules are
skipped, non-matching rules are skipped, matching rules contribute their
entries in order; the loop index advances over every entry including the
skipped ones. -/
def buildAdditionalRedactorsFrom (env : RedactorEnv) (path : String) :
    Nat → List (Option RedactSpec) → Except String (List Redactor)
  | _, [] => Except.ok []
  | i, none :: rest => buildAdditionalRedactorsFrom env path (i + 1) rest
  | i, some redact :: rest => do
    let isMatch ← redactMatchesPath env path redact
    if !isMatch then buildAdditionalRedactorsFrom env path (i + 1) rest
    else do
      let rs ← buildEntriesForRule env path i redact
      let more ← buildAdditionalRedactorsFrom env path (i + 1) rest
      Except.ok (rs ++ more)

/-- buildAdditionalRedactors from the source. -/
def buildAdditionalRedactors (env : RedactorEnv) (path : String)
    (redacts : List (Option RedactSpec)) : Except String (List Redactor) :=
  buildAdditionalRedactorsFrom env path 0 redacts

/-- The fixed single-line default patterns of `getRedactors`, verbatim and
in source order. -/
def singleLines : List String :=
  [r#"(?P<mask>\b(?P<drop>25[0-5]|2[0-4][0-9]|[01]?[0-9][0-9]?)\.(?P<drop>25[0-5]|2[0-4][0-9]|[01]?[0-9][0-9]?)\.(?P<drop>25[0-5]|2[0-4][0-9]|[01]?[0-9][0-9]?)\.(?P<drop>25[0-5]|2[0-4][0-9]|[01]?[0-9][0-9]?)\b)"#,
   r#"(?i)(\\\"name\\\":\\\"[^\"]*SECRET_?ACCESS_?KEY\\\",\\\"value\\\":\\\")(?P<mask>[^\"]*)(\\\")"#,
   r#"(?i)(\\\"name\\\":\\\"[^\"]*ACCESS_?KEY_?ID\\\",\\\"value\\\":\\\")(?P<mask>[^\"]*)(\\\")"#,
   r#"(?i)(\\\"name\\\":\\\"[^\"]*OWNER_?ACCOUNT\\\",\\\"value\\\":\\\")(?P<mask>[^\"]*)(\\\")"#,
   r#"(?i)(\\\"name\\\":\\\"[^\"]*password[^\"]*\\\",\\\"value\\\":\\\")(?P<mask>[^\"]*)(\\\")"#,
   r#"(?i)(\\\"name\\\":\\\"[^\"]*token[^\"]*\\\",\\\"value\\\":\\\")(?P<mask>[^\"]*)(\\\")"#,
   r#"(?i)(\\\"name\\\":\\\"[^\"]*database[^\"]*\\\",\\\"value\\\":\\\")(?P<mask>[^\"]*)(\\\")"#,
   r#"(?i)(\\\"name\\\":\\\"[^\"]*user[^\"]*\\\",\\\"value\\\":\\\")(?P<mask>[^\"]*)(\\\")"#,
   r#"(?i)(https?|ftp)(:\/\/)(?P<mask>[^:\"\/]+){1}(:)(?P<mask>[^@\"\/]+){1}(?P<host>@[^:\/\s\"]+){1}(?P<port>:[\d]+)?"#,
   r#"\b(?P<mask>[^:\"\/]*){1}(:)(?P<mask>[^:\"\/]*){1}(@tcp\()(?P<mask>[^:\"\/]*){1}(?P<port>:[\d]*)?(\)\/)(?P<mask>[\w\d\S-_]+){1}\b"#,
   r#"(?i)(Data Source *= *)(?P<mask>[^\;]+)(;)"#,
   r#"(?i)(location *= *)(?P<mask>[^\;]+)(;)"#,
   r#"(?i)(User ID *= *)(?P<mask>[^\;]+)(;)"#,
   r#"(?i)(password *= *)(?P<mask>[^\;]+)(;)"#,
   r#"(?i)(Server *= *)(?P<mask>[^\;]+)(;)"#,
   r#"(?i)(Database *= *)(?P<mask>[^\;]+)(;)"#,
   r#"(?i)(Uid *= *)(?P<mask>[^\;]+)(;)"#,
   r#"(?i)(Pwd *= *)(?P<mask>[^\;]+)(;)"#]

/-- One entry of the two-line default list of `getRedactors`. -/
structure DoubleLine where
  line1 : String
  line2 : String
deriving DecidableEq, Repr

/-- The fixed two-line default patterns of `getRedactors`, verbatim and in
source order. -/
def doubleLines : List DoubleLine :=
  [{ line1 := r#"(?i)"name": *"[^\"]*SECRET_?ACCESS_?KEY[^\"]*""#,
     line2 := r#"(?i)("value": *")(?P<mask>.*[^\"]*)(")"# },
   { line1 := r#"(?i)"name": *"[^\"]*ACCESS_?KEY_?ID[^\"]*""#,
     line2 := r#"(?i)("value": *")(?P<mask>.*[^\"]*)(")"# },
   { line1 := r#"(?i)"name": *"[^\"]*OWNER_?ACCOUNT[^\"]*""#,
     line2 := r#"(?i)("value": *")(?P<mask>.*[^\"]*)(")"# },
   { line1 := r#"(?i)"name": *".*password[^\"]*""#,
     line2 := r#"(?i)("value": *")(?P<mask>.*[^\"]*)(")"# },
   { line1 := r#"(?i)"name": *".*token[^\"]*""#,
     line2 := r#"(?i)("value": *")(?P<mask>.*[^\"]*)(")"# },
   { line1 := r#"(?i)"name": *".*database[^\"]*""#,
     line2 := r#"(?i)("value": *")(?P<mask>.*[^\"]*)(")"# },
   { line1 := r#"(?i)"name": *".*user[^\"]*""#,
     line2 := r#"(?i)("value": *")(?P<mask>.*[^\"]*)(")"# }]

/-- getRedactors from the source: one single-line redactor per
`singleLines` entry, then one multi-line redactor per `doubleLines` entry,
each named with `redactorName(-1, i, "", type, literal)`; the first
constructor error aborts the whole call. -/
def getRedactors (env : RedactorEnv) (path : String) : Except String (List Redactor) := do
  let singles ← singleLines.enum.mapM (fun p =>
    NewSingleLineRedactor env p.2 MASK_TEXT path
      (redactorName (-1) p.1 "" "defaultRegex" p.2))
  let doubles ← doubleLines.enum.mapM (fun p =>
    NewMultiLineRedactor env p.2.line1 p.2.line2 MASK_TEXT path
      (redactorName (-1) p.1 "" "defaultMultiLine" p.2.line1))
  Except.ok (singles ++ doubles)

/-- Redact from the source: build the built-in redactors, then the custom
ones (error wrapped with "build custom redactors"), chain every redactor
over the input reader in order, and drain the final reader — a terminal
stream error yields that error and no output. -/
def Redact (env : RedactorEnv) (input : String) (path : String)
    (additionalRedactors : List (Option RedactSpec)) : Except String String := do
  let redactors ← getRedactors env path
  let builtRedactors ←
    match buildAdditionalRedactors env path additionalRedactors with
    | Except.error e => Except.error ("build custom redactors: " ++ e)
    | Except.ok rs => Except.ok rs
  let chain := redactors ++ builtRedactors
  let nextReader := chain.foldl (fun rd r => r.Redact rd) (Reader.mk input none)
  match nextReader.err with
  | some e => Except.error e
  | none => Except.ok nextReader.content

/-- getReplacementPattern from the source: walk `re.SubexpNames()` (here
the list of subexpression names, index 0 being the whole match) with the
loop index, growing the substitution string per group kind. -/
def getReplacementPattern (subexpNames : List String) (maskText : String) : String :=
  subexpNames.enum.foldl (fun substStr p =>
    if p.1 = 0 then substStr
    else if p.2 = "" then substStr ++ "$" ++ toString p.1
    else if p.2 = "mask" then substStr ++ maskText
    else if p.2 = "drop" then substStr
    else substStr ++ "$\x7b" ++ p.2 ++ "\x7d") ""

/-- One result of a `bufio.Reader.ReadLine()` call: a line fragment with
its `isPrefix` flag, or an error (end-of-stream is the error `"EOF"`). -/
inductive ReadLineResult where
  | frag (s : String) (isPrefix : Bool)
  | err (e : String)
deriving DecidableEq, Repr

/-- The accumulation loop of `readLine`: concatenate fragments while
`isPrefix` holds; an underlying error (or stream exhaustion, which
`bufio` reports as the `EOF` error) returns `""` with that error. -/
def readLineLoop (completeLine : String) : List ReadLineResult → String × Option String
  | [] => ("", some "EOF")
  | ReadLineResult.err e :: _ => ("", some e)
  | ReadLineResult.frag s isPrefix :: rest =>
    if isPrefix then readLineLoop (completeLine ++ s) rest
    else (completeLine ++ s, none)

/-- readLine from the source, over the modelled sequence of successive
`ReadLine()` results of the underlying `bufio.Reader`. -/
def readLine (r : List ReadLineResult) : String × Option String :=
  readLineLoop "" r

/-- The empty ledger, as set up by `init` and `ResetRedactionList`. -/
def emptyRedactionList : RedactionList :=
  { ByRedactor := fun _ => [], ByFile := fun _ => [] }

/-- The locked body of the goroutine spawned by `addRedaction`: append the
record to `ByRedactor` under its redactor name and to `ByFile` under its
file.  The mutex makes this one atomic step. -/
def commitRedaction (l : RedactionList) (redaction : Redaction) : RedactionList :=
  { ByRedactor := fun k =>
      if k = redaction.RedactorName then l.ByRedactor k ++ [redaction]
      else l.ByRedactor k,
    ByFile := fun k =>
      if k = redaction.File then l.ByFile k ++ [redaction]
      else l.ByFile k }

/-- Interleaving state of the ledger subsystem: `pending` holds the
records whose `addRedaction` has run `pendingRedactions.Add(1)` but whose
goroutine has not yet run (the wait-group counter is `pending.length`);
`ledger` is `allRedactions`. -/
structure LedgerState where
  pending : List Redaction
  ledger : RedactionList

/-- Process start: empty wait group, empty ledger (the package `init`). -/
def initLedgerState : LedgerState :=
  { pending := [], ledger := emptyRedactionList }

/-- Atomic events of the ledger subsystem: `appendStart r` is the
synchronous part of `addRedaction` (the `Add(1)`), `commit r` is its
goroutine running to completion under the mutex (both map appends plus
`Done()`). -/
inductive LedgerEvent where
  | appendStart (r : Redaction)
  | commit (r : Redaction)

/-- Small-step semantics of the ledger: a commit of a record that is not
pending is a no-op (each spawned goroutine commits its record once). -/
def ledgerStep (s : LedgerState) : LedgerEvent → LedgerState
  | LedgerEvent.appendStart r => { s with pending := s.pending ++ [r] }
  | LedgerEvent.commit r =>
    if r ∈ s.pending then
      { pending := s.pending.erase r, ledger := commitRedaction s.ledger r }
    else s

/-- Run a sequence of ledger events from a state. -/
def runTraceFrom (s : LedgerState) (evs : List LedgerEvent) : LedgerState :=
  evs.foldl ledgerStep s

/-- Run a sequence of ledger events from process start. -/
def runTrace (evs : List LedgerEvent) : LedgerState :=
  runTraceFrom initLedgerState evs

/-- The records whose `addRedaction` call occurs in a trace, in order. -/
def appendedOf (evs : List LedgerEvent) : List Redaction :=
  evs.filterMap (fun e => match e with
    | LedgerEvent.appendStart r => some r
    | LedgerEvent.commit _ => none)

/-- GetRedactionList from the source: `pendingRedactions.Wait()` — the
call is enabled only in a state whose wait-group counter is zero, i.e.
`pending = []` — then the locked read of `allRedactions`. -/
def GetRedactionList (s : LedgerState) : RedactionList := s.ledger

/-- Whether `pendingRedactions.Wait()` returns in state `s`. -/
def snapshotEnabled (s : LedgerState) : Prop := s.pending = []

/-- A `*` wildcard before the rest of the pattern: stop here, or consume
one non-separator character and continue. -/
def globTryStar (matchRest : List Char → Bool) : List Char → Bool
  | [] => matchRest []
  | c :: rest => matchRest (c :: rest) || (c != '/' && globTryStar matchRest rest)

/-- Modelled from the spec: the external glob capability
(`match(pattern, path, separator) -> bool`, standard glob semantics with
separator `/`, spec §6): `*` matches any run of characters not containing
the separator, every other character matches itself. -/
def globMatchChars : List Char → List Char → Bool
  | [], s => s.isEmpty
  | '*' :: ps, s => globTryStar (globMatchChars ps) s
  | _ :: _, [] => false
  | p :: ps, c :: rest => p == c && globMatchChars ps rest

/-- Modelled from the spec: a concrete instance of the external glob
compiler, total on the `*`-and-literal pattern subset it implements. -/
def specGlobCompile (pattern : String) : Option (String → Bool) :=
  some (fun path => globMatchChars pattern.toList path.toList)

/-- The contribution of one enumerated subexpression name to the
replacement template (`""` for the whole-match entry and for `drop`). -/
def replacementPiece (maskText : String) (p : Nat × String) : String :=
  if p.1 = 0 then ""
  else if p.2 = "" then "$" ++ toString p.1
  else if p.2 = "mask" then maskText
  else if p.2 = "drop" then ""
  else "$\x7b" ++ p.2 ++ "\x7d"

/-- The contribution of one capture group (group 0 already skipped) per
the spec's wording. -/
def specPiece (maskText : String) (p : Nat × String) : String :=
  if p.2 = "" then "$" ++ toString p.1
  else if p.2 = "mask" then maskText
  else if p.2 = "drop" then ""
  else "$\x7b" ++ p.2 ++ "\x7d"

/-- The replacement template as the spec words it: walk the capture
groups in order, skipping group 0, and concatenate the per-group pieces. -/
def replacementPatternSpec (subexpNames : List String) (maskText : String) : String :=
  String.join (((subexpNames.enum).filter (fun p => p.1 != 0)).map (specPiece maskText))

/-- An environment in which every pattern compiles and every transform is
the identity, used for concrete instances. -/
def envId : RedactorEnv :=
  { compileRegex := fun _ => some id,
    compileGlob := fun _ => some (fun _ => true),
    literalTransform := fun _ r => r,
    multiTransform := fun _ _ r => r,
    yamlTransform := fun _ r => r }

/-- A named custom rule with two regex entries. -/
def ruleFoo : RedactSpec := { RedactSpec.empty with Name := "foo", Regex := ["a", "b"] }

/-- The indexed non-nil entries of a rule list, in order. -/
def indexedNonNil (redacts : List (Option RedactSpec)) : List (Nat × RedactSpec) :=
  redacts.enum.filterMap (fun p => p.2.map (fun r => (p.1, r)))

/-- Rule processing with the nil entries already removed: the comparison
definition for the skipping behaviour of `buildAdditionalRedactorsFrom`. -/
def buildOnSomeRules (env : RedactorEnv) (path : String) :
    List (Nat × RedactSpec) → Except String (List Redactor)
  | [] => Except.ok []
  | (i, redact) :: rest => do
    let isMatch ← redactMatchesPath env path redact
    if !isMatch then buildOnSomeRules env path rest
    else do
      let rs ← buildEntriesForRule env path i redact
      let more ← buildOnSomeRules env path rest
      Except.ok (rs ++ more)

lemma String.joinCons (s : String) (l : List String) :
    String.join (s :: l) = s ++ String.join l := by
  apply String.ext
  simp [String.data_join]

lemma getReplacementPattern_foldl (maskText : String) :
    ∀ (l : List (Nat × String)) (acc : String),
      l.foldl (fun substStr p =>
        if p.1 = 0 then substStr
        else if p.2 = "" then substStr ++ "$" ++ toString p.1
        else if p.2 = "mask" then substStr ++ maskText
        else if p.2 = "drop" then substStr
        else substStr ++ "$\x7b" ++ p.2 ++ "\x7d") acc
      = acc ++ String.join (l.map (replacementPiece maskText))
  | [], acc => by
    simp only [List.foldl_nil, List.map_nil]
    exact (String.append_empty acc).symm
  | p :: l, acc => by
    rw [List.foldl_cons, getReplacementPattern_foldl maskText l, List.map_cons,
      String.joinCons]
    by_cases h0 : p.1 = 0
    · simp [replacementPiece, h0, String.append_empty, String.append_assoc]
    · by_cases h1 : p.2 = ""
      · simp [replacementPiece, h0, h1, String.append_assoc]
      · by_cases h2 : p.2 = "mask"
        · simp [replacementPiece, h0, h1, h2, String.append_assoc]
        · by_cases h3 : p.2 = "drop"
          · simp [replacementPiece, h0, h1, h2, h3, String.append_empty,
              String.append_assoc]
          · simp [replacementPiece, h0, h1, h2, h3, String.append_assoc]

lemma join_replacementPiece_filter (maskText : String) :
    ∀ l : List (Nat × String),
      String.join (l.map (replacementPiece maskText))
        = String.join ((l.filter (fun p => p.1 != 0)).map (specPiece maskText))
  | [] => rfl
  | p :: l => by
    by_cases h0 : p.1 = 0
    · rw [List.map_cons, String.joinCons, List.filter_cons]
      simp only [h0, bne_self_eq_false, if_false]
      rw [join_replacementPiece_filter maskText l]
      simp [replacementPiece, h0, String.empty_append]
    · rw [List.map_cons, String.joinCons, List.filter_cons]
      have : (p.1 != 0) = true := by simpa using h0
      rw [this, if_pos rfl, List.map_cons, String.joinCons,
        join_replacementPiece_filter maskText l]
      have hp : replacementPiece maskText p = specPiece maskText p := by
        simp [replacementPiece, specPiece, h0]
      rw [hp]

/-- Claim C2: for every list of subexpression names (index 0 the whole match)
and every mask text, the replacement template built by
`getReplacementPattern` equals the spec's walk over the capture groups:
skip group 0, emit `$i` for an unnamed group, the mask placeholder for a
group named `mask`, nothing for a group named `drop`, and `${name}` for
any other named group, concatenated in order. -/
theorem getReplacementPattern_eq_spec (subexpNames : List String) (maskText : String) :
    getReplacementPattern subexpNames maskText
      = replacementPatternSpec subexpNames maskText := by
  unfold getReplacementPattern replacementPatternSpec
  rw [getReplacementPattern_foldl maskText, String.empty_append,
    join_replacementPiece_filter maskText]

lemma readLineLoop_complete :
    ∀ (frags : List String) (acc last : String) (rest : List ReadLineResult),
      readLineLoop acc
          (frags.map (fun f => ReadLineResult.frag f true)
            ++ ReadLineResult.frag last false :: rest)
        = (acc ++ String.join frags ++ last, none)
  | [], acc, last, rest => by
    show (acc ++ last, (none : Option String)) = (acc ++ String.join [] ++ last, none)
    rw [show String.join [] = "" from rfl, String.append_empty]
  | f :: fs, acc, last, rest => by
    show readLineLoop (acc ++ f)
        (fs.map (fun f => ReadLineResult.frag f true)
          ++ ReadLineResult.frag last false :: rest)
      = (acc ++ String.join (f :: fs) ++ last, none)
    rw [readLineLoop_complete fs (acc ++ f) last rest, String.joinCons]
    rw [String.append_assoc acc f (String.join fs), ← String.append_assoc]

lemma readLineLoop_err :
    ∀ (frags : List String) (acc e : String) (rest : List ReadLineResult),
      readLineLoop acc
          (frags.map (fun f => ReadLineResult.frag f true)
            ++ ReadLineResult.err e :: rest)
        = ("", some e)
  | [], acc, e, rest => rfl
  | f :: fs, acc, e, rest => by
    show readLineLoop (acc ++ f)
        (fs.map (fun f => ReadLineResult.frag f true) ++ ReadLineResult.err e :: rest)
      = ("", some e)
    exact readLineLoop_err fs (acc ++ f) e rest

/-- Claim C9: `readLine` returns the next complete logical line by
concatenating all prefix fragments up to and including the first
non-prefix fragment (a line split across buffer reads comes back as one
string), and when the underlying stream errors it returns the empty
string together with that error. -/
theorem readLine_spec :
    (∀ (frags : List String) (last : String) (rest : List ReadLineResult),
      readLine (frags.map (fun f => ReadLineResult.frag f true)
          ++ ReadLineResult.frag last false :: rest)
        = (String.join frags ++ last, none)) ∧
    (∀ (frags : List String) (e : String) (rest : List ReadLineResult),
      readLine (frags.map (fun f => ReadLineResult.frag f true)
          ++ ReadLineResult.err e :: rest)
        = ("", some e)) := by
  constructor
  · intro frags last rest
    unfold readLine
    rw [readLineLoop_complete frags "" last rest, String.empty_append]
  · intro frags e rest
    unfold readLine
    exact readLineLoop_err frags "" e rest

lemma buildAdditionalRedactorsFrom_eq_buildOnSome (env : RedactorEnv) (path : String) :
    ∀ (redacts : List (Option RedactSpec)) (i : Nat),
      buildAdditionalRedactorsFrom env path i redacts
        = buildOnSomeRules env path
            ((redacts.enumFrom i).filterMap (fun p => p.2.map (fun r => (p.1, r))))
  | [], i => by simp [buildAdditionalRedactorsFrom, buildOnSomeRules]
  | none :: rest, i => by
    simp only [List.enumFrom_cons, List.filterMap_cons, Option.map_none']
    exact buildAdditionalRedactorsFrom_eq_buildOnSome env path rest (i + 1)
  | some redact :: rest, i => by
    simp only [List.enumFrom_cons, List.filterMap_cons, Option.map_some']
    show (do
        let isMatch ← redactMatchesPath env path redact
        if !isMatch then buildAdditionalRedactorsFrom env path (i + 1) rest
        else do
          let rs ← buildEntriesForRule env path i redact
          let more ← buildAdditionalRedactorsFrom env path (i + 1) rest
          Except.ok (rs ++ more)) = _
    rw [buildAdditionalRedactorsFrom_eq_buildOnSome env path rest (i + 1)]
    rfl

/-- Claim C10: `buildAdditionalRedactors` skips each nil rule entry without
error and without building anything for it: its result on any rule list
equals rule processing over exactly the indexed non-nil entries, in
order. -/
theorem buildAdditionalRedactors_skips_nil (env : RedactorEnv) (path : String)
    (redacts : List (Option RedactSpec)) :
    buildAdditionalRedactors env path redacts
      = buildOnSomeRules env path (indexedNonNil redacts) := by
  unfold buildAdditionalRedactors indexedNonNil List.enum
  exact buildAdditionalRedactorsFrom_eq_buildOnSome env path redacts 0

/-- All glob strings of a rule: `File` (when non-empty) then `Files`. -/
def ruleGlobs (r : RedactSpec) : List String :=
  (if r.File ≠ "" then [r.File] else []) ++ r.Files

/-- Whether one glob string of a rule, once compiled, matches the path
(false when it does not compile). -/
def globApplies (env : RedactorEnv) (path g : String) : Bool :=
  match env.compileGlob g with
  | some m => m path
  | none => false

/-- The glob environment instantiated with the spec-modelled matcher. -/
def specGlobEnv : RedactorEnv := { envId with compileGlob := specGlobCompile }

/-- The scoped rule of the spec's glob-scoping scenario. -/
def logsRule : RedactSpec := { RedactSpec.empty with File := "logs/*.log" }

lemma compileGlobList_all (env : RedactorEnv) (path : String) :
    ∀ gs : List String, (∀ g ∈ gs, (env.compileGlob g).isSome = true) →
      ∃ ms, compileGlobList env gs = Except.ok ms ∧
        ms.any (fun m => m path) = gs.any (globApplies env path)
  | [], _ => ⟨[], rfl, rfl⟩
  | g :: gs, h => by
    obtain ⟨m, hm⟩ : ∃ m, env.compileGlob g = some m :=
      Option.isSome_iff_exists.mp (h g (List.mem_cons_self g gs))
    obtain ⟨ms, hms, hany⟩ :=
      compileGlobList_all env path gs (fun g' hg' => h g' (List.mem_cons_of_mem _ hg'))
    refine ⟨m :: ms, ?_, ?_⟩
    · simp [compileGlobList, hm, hms]
    · simp [List.any_cons, hany, globApplies, hm]

lemma redactMatchesPath_all_compiled (env : RedactorEnv) (path : String)
    (r : RedactSpec) (hcond : ¬(r.File = "" ∧ r.Files = []))
    (hall : ∀ g ∈ ruleGlobs r, (env.compileGlob g).isSome = true) :
    redactMatchesPath env path r
      = Except.ok ((ruleGlobs r).any (globApplies env path)) := by
  have hbool : (r.File = "" && r.Files.isEmpty) = false := by
    rcases Bool.eq_false_or_eq_true (r.File = "" && r.Files.isEmpty) with h | h
    · exfalso
      apply hcond
      simp only [Bool.and_eq_true, decide_eq_true_eq, List.isEmpty_iff] at h
      exact h
    · exact h
  by_cases hf : r.File = ""
  · have hglobs : ruleGlobs r = r.Files := by simp [ruleGlobs, hf]
    obtain ⟨ms, hms, hany⟩ := compileGlobList_all env path r.Files (by
      intro g hg
      exact hall g (by rw [hglobs]; exact hg))
    unfold redactMatchesPath
    rw [hbool]
    simp only [if_neg (by simp [hf] : ¬r.File ≠ ""), Bool.false_eq_true]
    rw [hms]
    simp [hglobs, hany]
  · have hglobs : ruleGlobs r = r.File :: r.Files := by simp [ruleGlobs, hf]
    obtain ⟨m, hm⟩ : ∃ m, env.compileGlob r.File = some m :=
      Option.isSome_iff_exists.mp (hall r.File (by rw [hglobs]; exact List.mem_cons_self _ _))
    obtain ⟨ms, hms, hany⟩ := compileGlobList_all env path r.Files (by
      intro g hg
      exact hall g (by rw [hglobs]; exact List.mem_cons_of_mem _ hg))
    unfold redactMatchesPath
    rw [hbool]
    simp only [if_pos hf, hm]
    rw [hms]
    simp [hglobs, hany, globApplies, hm]

/-- Claim C5: a rule with no glob (empty `File`, empty `Files`) matches every
path; otherwise, when every glob of the rule compiles,
`redactMatchesPath` returns true exactly when at least one compiled glob
matches the path — and concretely, a rule scoped to `logs/*.log` does not
apply to `config/app.yaml`. -/
theorem redactMatchesPath_spec (env : RedactorEnv) (path : String) (r : RedactSpec) :
    (r.File = "" ∧ r.Files = [] → redactMatchesPath env path r = Except.ok true) ∧
    (¬(r.File = "" ∧ r.Files = []) →
      (∀ g ∈ ruleGlobs r, (env.compileGlob g).isSome = true) →
      (redactMatchesPath env path r = Except.ok true ↔
        ∃ g ∈ ruleGlobs r, ∃ m, env.compileGlob g = some m ∧ m path = true)) ∧
    redactMatchesPath specGlobEnv "config/app.yaml" logsRule = Except.ok false := by
  refine ⟨?_, ?_, ?_⟩
  · rintro ⟨h1, h2⟩
    unfold redactMatchesPath
    rw [if_pos (by simp [h1, h2])]
  · intro hcond hall
    rw [redactMatchesPath_all_compiled env path r hcond hall]
    simp only [Except.ok.injEq, List.any_eq_true]
    constructor
    · rintro ⟨g, hg, happ⟩
      obtain ⟨m, hm⟩ := Option.isSome_iff_exists.mp (hall g hg)
      refine ⟨g, hg, m, hm, ?_⟩
      simpa [globApplies, hm] using happ
    · rintro ⟨g, hg, m, hm, hmp⟩
      exact ⟨g, hg, by simp [globApplies, hm, hmp]⟩
  · rfl

/-- Claim C5 witness: an unscoped rule applies to an arbitrary path, and the
`logs/*.log` rule applies to `logs/a.log`. -/
theorem redactMatchesPath_spec_witness :
    redactMatchesPath specGlobEnv "x" RedactSpec.empty = Except.ok true ∧
    redactMatchesPath specGlobEnv "logs/a.log" logsRule = Except.ok true := by
  constructor
  · exact (redactMatchesPath_spec specGlobEnv "x" RedactSpec.empty).1 ⟨rfl, rfl⟩
  · refine ((redactMatchesPath_spec specGlobEnv "logs/a.log" logsRule).2.1
      (fun h => absurd h.1 (by decide)) (fun g _ => rfl)).mpr ?_
    exact ⟨"logs/*.log", by decide, fun p => globMatchChars "logs/*.log".toList p.toList,
      rfl, by decide⟩

/-- A rule has a glob that does not compile. -/
def hasFailingGlob (env : RedactorEnv) (r : RedactSpec) : Prop :=
  (r.File ≠ "" ∧ env.compileGlob r.File = none) ∨
  (∃ g ∈ r.Files, env.compileGlob g = none)

/-- A rule has a regex or multi-line pattern that does not compile. -/
def hasFailingPattern (env : RedactorEnv) (r : RedactSpec) : Prop :=
  (∃ re ∈ r.Regex, env.compileRegex re = none) ∨
  (∃ m ∈ r.MultiLine,
    env.compileRegex m.Selector = none ∨ env.compileRegex m.Redactor = none)

lemma mapM_error {α β : Type} (f : α → Except String β) :
    ∀ l : List α, (∃ a ∈ l, ∃ e, f a = Except.error e) →
      ∃ e, l.mapM f = Except.error e
  | [], h => absurd h (by simp)
  | x :: l, ⟨a, ha, e, he⟩ => by
    cases hx : f x with
    | error e' => exact ⟨e', by rw [List.mapM_cons, hx]; rfl⟩
    | ok b =>
      rcases List.mem_cons.mp ha with rfl | ha'
      · rw [hx] at he
        cases he
      · obtain ⟨e2, h2⟩ := mapM_error f l ⟨a, ha', e, he⟩
        exact ⟨e2, by rw [List.mapM_cons, hx, h2]; rfl⟩

lemma compileGlobList_error (env : RedactorEnv) :
    ∀ gs : List String, (∃ g ∈ gs, env.compileGlob g = none) →
      ∃ e, compileGlobList env gs = Except.error e
  | [], h => absurd h (by simp)
  | g :: gs, ⟨g', hg', hnone⟩ => by
    rcases List.mem_cons.mp hg' with rfl | hg'
    · exact ⟨_, by unfold compileGlobList; rw [hnone]⟩
    · cases hx : env.compileGlob g with
      | none => exact ⟨_, by unfold compileGlobList; rw [hx]⟩
      | some m =>
        obtain ⟨e, he⟩ := compileGlobList_error env gs ⟨g', hg', hnone⟩
        exact ⟨e, by unfold compileGlobList; rw [hx, he]⟩

lemma redactMatchesPath_error (env : RedactorEnv) (path : String)
    (r : RedactSpec) (h : hasFailingGlob env r) :
    ∃ e, redactMatchesPath env path r = Except.error e := by
  rcases h with ⟨hne, hnone⟩ | ⟨g, hg, hnone⟩
  · refine ⟨"invalid file glob string " ++ goQuote r.File, ?_⟩
    unfold redactMatchesPath
    rw [if_neg (by simp [hne]), if_pos hne, hnone]
  · have hFiles : r.Files.isEmpty = false := by
      cases hf : r.Files with
      | nil => rw [hf] at hg; cases hg
      | cons a l => rfl
    obtain ⟨e, he⟩ := compileGlobList_error env r.Files ⟨g, hg, hnone⟩
    by_cases hf : r.File = ""
    · refine ⟨e, ?_⟩
      unfold redactMatchesPath
      rw [if_neg (by simp [hFiles]), if_neg (by simp [hf]), he]
    · cases hx : env.compileGlob r.File with
      | none =>
        refine ⟨"invalid file glob string " ++ goQuote r.File, ?_⟩
        unfold redactMatchesPath
        rw [if_neg (by simp [hFiles]), if_pos hf, hx]
      | some m =>
        refine ⟨e, ?_⟩
        unfold redactMatchesPath
        rw [if_neg (by simp [hFiles]), if_pos hf, hx, he]

lemma buildEntriesForRule_error (env : RedactorEnv) (path : String) (i : Nat)
    (r : RedactSpec) (h : hasFailingPattern env r) :
    ∃ e, buildEntriesForRule env path i r = Except.error e := by
  rcases h with ⟨re, hre, hnone⟩ | ⟨m, hm, hnone⟩
  · have hsingle : ∃ e,
        (match NewSingleLineRedactor env re MASK_TEXT path
            (redactorName (Int.ofNat i) 0 r.Name "regex" "") with
          | Except.error e => Except.error ("redactor " ++ goQuote re ++ ": " ++ e)
          | Except.ok r => (Except.ok r : Except String Redactor))
          = Except.error e := by
      cases hN : NewSingleLineRedactor env re MASK_TEXT path
          (redactorName (Int.ofNat i) 0 r.Name "regex" "") with
      | error e0 => exact ⟨"redactor " ++ goQuote re ++ ": " ++ e0, rfl⟩
      | ok rr =>
        exfalso
        unfold NewSingleLineRedactor at hN
        rw [hnone] at hN
        exact Except.noConfusion hN
    obtain ⟨e1, he1⟩ := hsingle
    obtain ⟨e, he⟩ := mapM_error
      (fun re =>
        match NewSingleLineRedactor env re MASK_TEXT path
            (redactorName (Int.ofNat i) 0 r.Name "regex" "") with
        | Except.error e => Except.error ("redactor " ++ goQuote re ++ ": " ++ e)
        | Except.ok r => Except.ok r)
      r.Regex ⟨re, hre, e1, he1⟩
    exact ⟨e, by unfold buildEntriesForRule; rw [he]; rfl⟩
  · have hmulti : ∃ e,
        (match NewMultiLineRedactor env m.Selector m.Redactor MASK_TEXT path
            (redactorName (Int.ofNat i) 0 r.Name "multiLine" "") with
          | Except.error e => Except.error ("multiline redactor: " ++ e)
          | Except.ok r => (Except.ok r : Except String Redactor))
          = Except.error e := by
      cases hN : NewMultiLineRedactor env m.Selector m.Redactor MASK_TEXT path
          (redactorName (Int.ofNat i) 0 r.Name "multiLine" "") with
      | error e0 => exact ⟨"multiline redactor: " ++ e0, rfl⟩
      | ok rr =>
        exfalso
        unfold NewMultiLineRedactor at hN
        rcases hnone with hs | hr2
        · rw [hs] at hN
          exact Except.noConfusion hN
        · cases hx : env.compileRegex m.Selector with
          | none =>
            rw [hx] at hN
            exact Except.noConfusion hN
          | some t =>
            rw [hx, hr2] at hN
            exact Except.noConfusion hN
    obtain ⟨e2, he2⟩ := hmulti
    cases hR : r.Regex.mapM
        (fun re =>
          match NewSingleLineRedactor env re MASK_TEXT path
              (redactorName (Int.ofNat i) 0 r.Name "regex" "") with
          | Except.error e => Except.error ("redactor " ++ goQuote re ++ ": " ++ e)
          | Except.ok r => Except.ok r) with
    | error e => exact ⟨e, by unfold buildEntriesForRule; rw [hR]; rfl⟩
    | ok singles =>
      obtain ⟨e, he⟩ := mapM_error
        (fun re =>
          match NewMultiLineRedactor env re.Selector re.Redactor MASK_TEXT path
              (redactorName (Int.ofNat i) 0 r.Name "multiLine" "") with
          | Except.error e => Except.error ("multiline redactor: " ++ e)
          | Except.ok r => Except.ok r)
        r.MultiLine ⟨m, hm, e2, he2⟩
      exact ⟨e, by unfold buildEntriesForRule; rw [hR, he]; rfl⟩

lemma buildAdditionalRedactorsFrom_error (env : RedactorEnv) (path : String) :
    ∀ (redacts : List (Option RedactSpec)) (i : Nat) (r : RedactSpec),
      some r ∈ redacts →
      (hasFailingGlob env r ∨
        (redactMatchesPath env path r = Except.ok true ∧ hasFailingPattern env r)) →
      ∃ e, buildAdditionalRedactorsFrom env path i redacts = Except.error e
  | [], _, _, hmem, _ => absurd hmem (by simp)
  | o :: rest, i, r, hmem, hfail => by
    rcases List.mem_cons.mp hmem with ho | hmem'
    · subst ho
      rcases hfail with hglob | ⟨hmatch, hpat⟩
      · obtain ⟨e, he⟩ := redactMatchesPath_error env path r hglob
        exact ⟨e, by unfold buildAdditionalRedactorsFrom; rw [he]; rfl⟩
      · obtain ⟨e, he⟩ := buildEntriesForRule_error env path i r hpat
        exact ⟨e, by unfold buildAdditionalRedactorsFrom; rw [hmatch, he]; rfl⟩
    · cases o with
      | none =>
        exact buildAdditionalRedactorsFrom_error env path rest (i + 1) r hmem' hfail
      | some r' =>
        cases hb : redactMatchesPath env path r' with
        | error e => exact ⟨e, by unfold buildAdditionalRedactorsFrom; rw [hb]; rfl⟩
        | ok b =>
          obtain ⟨e, he⟩ :=
            buildAdditionalRedactorsFrom_error env path rest (i + 1) r hmem' hfail
          cases b with
          | false =>
            exact ⟨e, by unfold buildAdditionalRedactorsFrom; rw [hb, he]; rfl⟩
          | true =>
            cases hE : buildEntriesForRule env path i r' with
            | error e' =>
              exact ⟨e', by unfold buildAdditionalRedactorsFrom; rw [hb, hE]; rfl⟩
            | ok rs =>
              exact ⟨e, by unfold buildAdditionalRedactorsFrom; rw [hb, hE, he]; rfl⟩

/-- Claim C3: if some custom rule in the list has a glob that fails to compile,
or applies to the path and has a regex or multi-line pattern that fails to
compile, then `Redact` fails: it returns an error and no output. -/
theorem Redact_fails_on_uncompilable_rule (env : RedactorEnv)
    (input path : String) (redacts : List (Option RedactSpec)) (r : RedactSpec)
    (hmem : some r ∈ redacts)
    (hfail : hasFailingGlob env r ∨
      (redactMatchesPath env path r = Except.ok true ∧ hasFailingPattern env r)) :
    ∃ e, Redact env input path redacts = Except.error e := by
  cases hG : getRedactors env path with
  | error e => exact ⟨e, by unfold Redact; rw [hG]; rfl⟩
  | ok bs =>
    obtain ⟨e, he⟩ :=
      buildAdditionalRedactorsFrom_error env path redacts 0 r hmem hfail
    have he2 : buildAdditionalRedactors env path redacts = Except.error e := he
    refine ⟨"build custom redactors: " ++ e, ?_⟩
    unfold Redact
    rw [hG, he2]
    rfl

/-- An environment in which exactly the pattern `"bad"` fails to
compile. -/
def envBadRegex : RedactorEnv :=
  { envId with compileRegex := fun s => if s = "bad" then none else some id }

/-- A custom rule whose single regex entry is the failing pattern. -/
def ruleBad : RedactSpec := { RedactSpec.empty with Name := "r", Regex := ["bad"] }

/-- Claim C3 witness: a concrete `Redact` call with one applicable rule whose
regex does not compile returns an error. -/
theorem Redact_fails_on_uncompilable_rule_witness :
    ∃ e, Redact envBadRegex "in" "p" [some ruleBad] = Except.error e :=
  Redact_fails_on_uncompilable_rule envBadRegex "in" "p" [some ruleBad] ruleBad
    (List.mem_singleton.mpr rfl)
    (Or.inr ⟨rfl, Or.inl ⟨"bad", List.mem_singleton.mpr rfl, rfl⟩⟩)

/-- Apply a redactor chain left to right: each redactor wraps the
previous redactor's output stream (the `for` loop of `Redact`). -/
def chainRedact (redactors : List Redactor) (rd : Reader) : Reader :=
  redactors.foldl (fun rd r => r.Redact rd) rd

lemma chainRedact_append (l1 l2 : List Redactor) (rd : Reader) :
    chainRedact (l1 ++ l2) rd = chainRedact l2 (chainRedact l1 rd) :=
  List.foldl_append _ _ l1 l2

lemma Redact_eq_of_ok (env : RedactorEnv) (input path : String)
    (redacts : List (Option RedactSpec)) (bs cs : List Redactor)
    (hG : getRedactors env path = Except.ok bs)
    (hB : buildAdditionalRedactors env path redacts = Except.ok cs) :
    Redact env input path redacts =
      match (chainRedact (bs ++ cs) (Reader.mk input none)).err with
      | some e => Except.error e
      | none => Except.ok (chainRedact (bs ++ cs) (Reader.mk input none)).content := by
  unfold Redact
  rw [hG, hB]
  rfl

lemma except_bind_ok_inv {α β : Type} {x : Except String α}
    {f : α → Except String β} {b : β} (h : (x >>= f) = Except.ok b) :
    ∃ a, x = Except.ok a ∧ f a = Except.ok b := by
  cases x with
  | error e => exact Except.noConfusion h
  | ok a => exact ⟨a, rfl, h⟩

lemma mapM_names {α : Type} (f : α → Except String Redactor) (nm : α → String)
    (hf : ∀ a r, f a = Except.ok r → r.name = nm a) :
    ∀ (l : List α) (out : List Redactor),
      l.mapM f = Except.ok out → out.map Redactor.name = l.map nm
  | [], out, h => by
    have h2 : [] = out := Except.ok.inj h
    rw [← h2]
    rfl
  | x :: l, out, h => by
    rw [List.mapM_cons] at h
    cases hx : f x with
    | error e =>
      rw [hx] at h
      exact Except.noConfusion h
    | ok r =>
      rw [hx] at h
      cases hl : l.mapM f with
      | error e =>
        rw [hl] at h
        exact Except.noConfusion h
      | ok ys =>
        rw [hl] at h
        have h2 : r :: ys = out := Except.ok.inj h
        rw [← h2, List.map_cons, List.map_cons, hf x r hx,
          mapM_names f nm hf l ys hl]

/-- Claim C4: when every redactor builds, `Redact` drains the composition of
the custom redactor chain applied after the built-in redactor chain, and
the built-in chain is the single-line defaults in list order followed by
the two-line defaults in list order (witnessed by their assigned
names). -/
theorem Redact_chain_spec (env : RedactorEnv) (input path : String)
    (redacts : List (Option RedactSpec)) (bs cs : List Redactor)
    (hG : getRedactors env path = Except.ok bs)
    (hB : buildAdditionalRedactors env path redacts = Except.ok cs) :
    (Redact env input path redacts =
      match (chainRedact cs (chainRedact bs (Reader.mk input none))).err with
      | some e => Except.error e
      | none =>
        Except.ok (chainRedact cs (chainRedact bs (Reader.mk input none))).content) ∧
    (∃ singles doubles, bs = singles ++ doubles ∧
      singles.map Redactor.name = singleLines.enum.map
        (fun p => redactorName (-1) p.1 "" "defaultRegex" p.2) ∧
      doubles.map Redactor.name = doubleLines.enum.map
        (fun p => redactorName (-1) p.1 "" "defaultMultiLine" p.2.line1)) := by
  constructor
  · rw [Redact_eq_of_ok env input path redacts bs cs hG hB, chainRedact_append]
  · unfold getRedactors at hG
    obtain ⟨singles, hs, hrest⟩ := except_bind_ok_inv hG
    obtain ⟨doubles, hd, hout⟩ := except_bind_ok_inv hrest
    refine ⟨singles, doubles, (Except.ok.inj hout).symm, ?_, ?_⟩
    · refine mapM_names _ _ ?_ singleLines.enum singles hs
      intro p r hp
      unfold NewSingleLineRedactor at hp
      cases hc : env.compileRegex p.2 with
      | none =>
        rw [hc] at hp
        exact Except.noConfusion hp
      | some t =>
        rw [hc] at hp
        have := Except.ok.inj hp
        rw [← this]
    · refine mapM_names _ _ ?_ doubleLines.enum doubles hd
      intro p r hp
      unfold NewMultiLineRedactor at hp
      cases hc : env.compileRegex p.2.line1 with
      | none =>
        rw [hc] at hp
        exact Except.noConfusion hp
      | some t =>
        rw [hc] at hp
        cases hc2 : env.compileRegex p.2.line2 with
        | none =>
          rw [hc2] at hp
          exact Except.noConfusion hp
        | some t2 =>
          rw [hc2] at hp
          have := Except.ok.inj hp
          rw [← this]

/-- The built-in redactors of the all-compiling identity environment. -/
def bs0 : List Redactor := (getRedactors envId "p").toOption.getD []

/-- Claim C4 witness: with identity transforms and no custom rules, `Redact`
returns its input unchanged, via the chain equation. -/
theorem Redact_chain_spec_witness : Redact envId "hello" "p" [] = Except.ok "hello" := by
  have h := Redact_chain_spec envId "hello" "p" [] bs0 [] rfl rfl
  rw [h.1]
  rfl

/-- Claim C7: `Redact` drains the composed transform fully: when the final
stream carries no error the fully redacted content is returned with no
error, and when it carries an error precisely that error is returned and
no output. -/
theorem Redact_drain_spec (env : RedactorEnv) (input path : String)
    (redacts : List (Option RedactSpec)) (bs cs : List Redactor)
    (hG : getRedactors env path = Except.ok bs)
    (hB : buildAdditionalRedactors env path redacts = Except.ok cs) :
    ((chainRedact (bs ++ cs) (Reader.mk input none)).err = none →
      Redact env input path redacts
        = Except.ok (chainRedact (bs ++ cs) (Reader.mk input none)).content) ∧
    (∀ e, (chainRedact (bs ++ cs) (Reader.mk input none)).err = some e →
      Redact env input path redacts = Except.error e) := by
  constructor
  · intro hnone
    rw [Redact_eq_of_ok env input path redacts bs cs hG hB, hnone]
  · intro e herr
    rw [Redact_eq_of_ok env input path redacts bs cs hG hB, herr]

/-- An environment whose compiled transforms mark the stream as failed. -/
def envErr : RedactorEnv :=
  { envId with
    compileRegex := fun _ => some (fun rd => { rd with err := some "read failure" }) }

/-- The built-in redactors of the erroring environment. -/
def bsErr : List Redactor := (getRedactors envErr "p").toOption.getD []

/-- Claim C7 witness: when the composed stream errors, `Redact` returns exactly
that error and no output. -/
theorem Redact_drain_spec_witness : Redact envErr "x" "p" [] = Except.error "read failure" := by
  have h := Redact_drain_spec envErr "x" "p" [] bsErr [] rfl rfl
  exact h.2 "read failure" rfl

lemma count_commit_ByRedactor (l : RedactionList) (r' r : Redaction) :
    ((commitRedaction l r').ByRedactor r.RedactorName).count r
      = (l.ByRedactor r.RedactorName).count r + (if r' = r then 1 else 0) := by
  by_cases h : r.RedactorName = r'.RedactorName
  · by_cases hrr : r' = r
    · subst hrr
      simp [commitRedaction, h, List.count_append, List.count_cons]
    · simp [commitRedaction, h, List.count_append, List.count_cons, hrr, Ne.symm hrr]
  · have hrr : r' ≠ r := fun hx => h (hx ▸ rfl)
    simp [commitRedaction, h, hrr]

lemma count_commit_ByFile (l : RedactionList) (r' r : Redaction) :
    ((commitRedaction l r').ByFile r.File).count r
      = (l.ByFile r.File).count r + (if r' = r then 1 else 0) := by
  by_cases h : r.File = r'.File
  · by_cases hrr : r' = r
    · subst hrr
      simp [commitRedaction, h, List.count_append, List.count_cons]
    · simp [commitRedaction, h, List.count_append, List.count_cons, hrr, Ne.symm hrr]
  · have hrr : r' ≠ r := fun hx => h (hx ▸ rfl)
    simp [commitRedaction, h, hrr]

lemma runTraceFrom_count (r : Redaction) :
    ∀ (evs : List LedgerEvent) (s : LedgerState),
      ((runTraceFrom s evs).pending.count r
          + ((runTraceFrom s evs).ledger.ByRedactor r.RedactorName).count r
        = s.pending.count r + (s.ledger.ByRedactor r.RedactorName).count r
          + (appendedOf evs).count r) ∧
      ((runTraceFrom s evs).pending.count r
          + ((runTraceFrom s evs).ledger.ByFile r.File).count r
        = s.pending.count r + (s.ledger.ByFile r.File).count r
          + (appendedOf evs).count r)
  | [], s => by simp [runTraceFrom, appendedOf]
  | e :: evs, s => by
    have hstep : runTraceFrom s (e :: evs) = runTraceFrom (ledgerStep s e) evs := rfl
    obtain ⟨ih1, ih2⟩ := runTraceFrom_count r evs (ledgerStep s e)
    rw [hstep]
    cases e with
    | appendStart r' =>
      have happ : appendedOf (LedgerEvent.appendStart r' :: evs)
          = r' :: appendedOf evs := rfl
      have hpend : (ledgerStep s (LedgerEvent.appendStart r')).pending
          = s.pending ++ [r'] := rfl
      have hled : (ledgerStep s (LedgerEvent.appendStart r')).ledger = s.ledger := rfl
      rw [happ, ih1, ih2, hpend, hled]
      constructor <;>
        · rw [List.count_append, List.count_cons]
          by_cases hrr : r' = r
          · simp [hrr, List.count_cons]
            omega
          · simp [hrr, Ne.symm hrr, List.count_cons]
    | commit r' =>
      have happ : appendedOf (LedgerEvent.commit r' :: evs) = appendedOf evs := rfl
      rw [happ, ih1, ih2]
      by_cases hin : r' ∈ s.pending
      · have hpend : (ledgerStep s (LedgerEvent.commit r')).pending
            = s.pending.erase r' := by simp [ledgerStep, hin]
        have hled : (ledgerStep s (LedgerEvent.commit r')).ledger
            = commitRedaction s.ledger r' := by simp [ledgerStep, hin]
        rw [hpend, hled, count_commit_ByRedactor, count_commit_ByFile,
          List.count_erase]
        by_cases hrr : r' = r
        · have hpos : 0 < s.pending.count r := by
            rw [← hrr]
            exact List.count_pos_iff.mpr hin
          simp only [hrr, if_pos rfl, beq_self_eq_true, if_true]
          omega
        · simp only [hrr, if_neg hrr]
          have : (r' == r) = false := beq_eq_false_iff_ne.mpr hrr
          rw [this]
          simp
      · have hstate : ledgerStep s (LedgerEvent.commit r') = s := by
          simp [ledgerStep, hin]
        rw [hstate]
        constructor <;> rfl

lemma ledger_mono_ByRedactor (k : String) (r : Redaction) :
    ∀ (evs : List LedgerEvent) (s : LedgerState),
      r ∈ s.ledger.ByRedactor k → r ∈ (runTraceFrom s evs).ledger.ByRedactor k
  | [], s, h => h
  | e :: evs, s, h => by
    apply ledger_mono_ByRedactor k r evs (ledgerStep s e)
    cases e with
    | appendStart r' => exact h
    | commit r' =>
      by_cases hin : r' ∈ s.pending
      · have : (ledgerStep s (LedgerEvent.commit r')).ledger
            = commitRedaction s.ledger r' := by simp [ledgerStep, hin]
        rw [this]
        show r ∈ (if k = r'.RedactorName then s.ledger.ByRedactor k ++ [r']
          else s.ledger.ByRedactor k)
        by_cases hk : k = r'.RedactorName
        · rw [if_pos hk]
          exact List.mem_append_left _ h
        · rw [if_neg hk]
          exact h
      · have : ledgerStep s (LedgerEvent.commit r') = s := by simp [ledgerStep, hin]
        rw [this]
        exact h

lemma ledger_mono_ByFile (k : String) (r : Redaction) :
    ∀ (evs : List LedgerEvent) (s : LedgerState),
      r ∈ s.ledger.ByFile k → r ∈ (runTraceFrom s evs).ledger.ByFile k
  | [], s, h => h
  | e :: evs, s, h => by
    apply ledger_mono_ByFile k r evs (ledgerStep s e)
    cases e with
    | appendStart r' => exact h
    | commit r' =>
      by_cases hin : r' ∈ s.pending
      · have : (ledgerStep s (LedgerEvent.commit r')).ledger
            = commitRedaction s.ledger r' := by simp [ledgerStep, hin]
        rw [this]
        show r ∈ (if k = r'.File then s.ledger.ByFile k ++ [r']
          else s.ledger.ByFile k)
        by_cases hk : k = r'.File
        · rw [if_pos hk]
          exact List.mem_append_left _ h
        · rw [if_neg hk]
          exact h
      · have : ledgerStep s (LedgerEvent.commit r') = s := by simp [ledgerStep, hin]
        rw [this]
        exact h

/-- Claim C1: every record appended before the wait-group barrier of
`GetRedactionList` passes (`evs1`, with no append left pending) is present
in the snapshot the call returns, under both indices, whatever events
(`evs2`) interleave between the barrier and the locked read; nothing is
claimed about records first appended in `evs2`. -/
theorem GetRedactionList_contains_prior_appends
    (evs1 evs2 : List LedgerEvent) (r : Redaction)
    (hwait : snapshotEnabled (runTrace evs1))
    (hmem : r ∈ appendedOf evs1) :
    r ∈ (GetRedactionList (runTrace (evs1 ++ evs2))).ByRedactor r.RedactorName ∧
    r ∈ (GetRedactionList (runTrace (evs1 ++ evs2))).ByFile r.File := by
  obtain ⟨h1, h2⟩ := runTraceFrom_count r evs1 initLedgerState
  have hpend : (runTraceFrom initLedgerState evs1).pending = [] := hwait
  rw [hpend] at h1 h2
  have hcnt : 0 < (appendedOf evs1).count r := List.count_pos_iff.mpr hmem
  have hinit1 : (initLedgerState.ledger.ByRedactor r.RedactorName).count r = 0 := rfl
  have hinit2 : (initLedgerState.ledger.ByFile r.File).count r = 0 := rfl
  have hinitp : initLedgerState.pending.count r = 0 := rfl
  rw [hinit1, hinitp] at h1
  rw [hinit2, hinitp] at h2
  simp only [List.count_nil, Nat.zero_add] at h1 h2
  have hm1 : r ∈ (runTraceFrom initLedgerState evs1).ledger.ByRedactor r.RedactorName := by
    apply List.count_pos_iff.mp
    omega
  have hm2 : r ∈ (runTraceFrom initLedgerState evs1).ledger.ByFile r.File := by
    apply List.count_pos_iff.mp
    omega
  have hsplit : runTrace (evs1 ++ evs2) = runTraceFrom (runTrace evs1) evs2 := by
    unfold runTrace runTraceFrom
    exact List.foldl_append _ _ evs1 evs2
  rw [hsplit]
  exact ⟨ledger_mono_ByRedactor _ r evs2 (runTrace evs1) hm1,
    ledger_mono_ByFile _ r evs2 (runTrace evs1) hm2⟩

/-- A concrete redaction record. -/
def r0w : Redaction :=
  { RedactorName := "rule", CharactersRemoved := 3, Line := 1, File := "f" }

/-- Claim C1 witness: a record appended and committed before the barrier is in
the snapshot under both of its keys. -/
theorem GetRedactionList_contains_prior_appends_witness :
    r0w ∈ (GetRedactionList (runTrace
        ([LedgerEvent.appendStart r0w, LedgerEvent.commit r0w] ++ []))).ByRedactor
        r0w.RedactorName ∧
    r0w ∈ (GetRedactionList (runTrace
        ([LedgerEvent.appendStart r0w, LedgerEvent.commit r0w] ++ []))).ByFile
        r0w.File :=
  GetRedactionList_contains_prior_appends
    [LedgerEvent.appendStart r0w, LedgerEvent.commit r0w] [] r0w
    (by rfl) (List.mem_singleton.mpr rfl)

/-- The ledger reached from empty by a sequence of append commits. -/
def applyCommits (rs : List Redaction) : RedactionList :=
  rs.foldl commitRedaction emptyRedactionList

/-- All records stored in the `ByRedactor` index, one key at a time. -/
def byRedactorFlatten (rs : List Redaction) : List Redaction :=
  (((rs.map Redaction.RedactorName).dedup).map (applyCommits rs).ByRedactor).flatten

/-- All records stored in the `ByFile` index, one key at a time. -/
def byFileFlatten (rs : List Redaction) : List Redaction :=
  (((rs.map Redaction.File).dedup).map (applyCommits rs).ByFile).flatten

lemma foldl_commit_ByRedactor (k : String) :
    ∀ (rs : List Redaction) (l : RedactionList),
      (rs.foldl commitRedaction l).ByRedactor k
        = l.ByRedactor k ++ rs.filter (fun r => r.RedactorName == k)
  | [], l => by simp
  | r :: rs, l => by
    rw [List.foldl_cons, foldl_commit_ByRedactor k rs (commitRedaction l r),
      List.filter_cons]
    have hcommit : (commitRedaction l r).ByRedactor k
        = if k = r.RedactorName then l.ByRedactor k ++ [r] else l.ByRedactor k := rfl
    rw [hcommit]
    by_cases h : r.RedactorName = k
    · rw [if_pos h.symm, if_pos (by simp [h])]
      simp [List.append_assoc]
    · rw [if_neg (fun hh => h hh.symm), if_neg (by simp [h])]

lemma foldl_commit_ByFile (k : String) :
    ∀ (rs : List Redaction) (l : RedactionList),
      (rs.foldl commitRedaction l).ByFile k
        = l.ByFile k ++ rs.filter (fun r => r.File == k)
  | [], l => by simp
  | r :: rs, l => by
    rw [List.foldl_cons, foldl_commit_ByFile k rs (commitRedaction l r),
      List.filter_cons]
    have hcommit : (commitRedaction l r).ByFile k
        = if k = r.File then l.ByFile k ++ [r] else l.ByFile k := rfl
    rw [hcommit]
    by_cases h : r.File = k
    · rw [if_pos h.symm, if_pos (by simp [h])]
      simp [List.append_assoc]
    · rw [if_neg (fun hh => h hh.symm), if_neg (by simp [h])]

lemma sum_ite_count (x : String) (c : Nat) :
    ∀ ks : List String, ks.Nodup →
      (ks.map (fun k => if x = k then c else 0)).sum = if x ∈ ks then c else 0
  | [], _ => by simp
  | k :: ks, hnd => by
    obtain ⟨hk, hnd'⟩ := List.nodup_cons.mp hnd
    rw [List.map_cons, List.sum_cons, sum_ite_count x c ks hnd']
    by_cases hxk : x = k
    · subst hxk
      rw [if_pos rfl, if_pos (List.mem_cons_self _ _), if_neg hk]
      omega
    · rw [if_neg hxk]
      by_cases hxm : x ∈ ks
      · rw [if_pos hxm, if_pos (List.mem_cons_of_mem _ hxm)]
        omega
      · rw [if_neg hxm, if_neg (by
          intro hc
          rcases List.mem_cons.mp hc with h | h
          · exact hxk h
          · exact hxm h)]

lemma flatten_filter_perm (key : Redaction → String) (rs : List Redaction) :
    ((((rs.map key).dedup).map
        (fun k => rs.filter (fun x => key x == k))).flatten).Perm rs := by
  rw [List.perm_iff_count]
  intro a
  rw [List.count_flatten, List.map_map]
  have hmapeq : ((rs.map key).dedup).map
        (List.count a ∘ (fun k => rs.filter (fun x => key x == k)))
      = ((rs.map key).dedup).map (fun k => if key a = k then rs.count a else 0) := by
    apply List.map_congr_left
    intro k _
    show List.count a (rs.filter (fun x => key x == k)) = _
    by_cases h : key a = k
    · rw [if_pos h]
      exact List.count_filter (by simp [h])
    · rw [if_neg h]
      apply List.count_eq_zero.mpr
      intro hmem
      exact h (by simpa using (List.mem_filter.mp hmem).2)
  rw [hmapeq, sum_ite_count (key a) (rs.count a) _ (List.nodup_dedup _)]
  by_cases ha : a ∈ rs
  · rw [if_pos (List.mem_dedup.mpr (List.mem_map_of_mem key ha))]
  · have h0 : rs.count a = 0 := List.count_eq_zero.mpr ha
    rw [h0]
    simp

/-- Claim C8: after any sequence of appends from the empty ledger, each keyed
list of `ByRedactor` (resp. `ByFile`) is exactly the appended records with
that redactor name (resp. file), in append order — so each record is
inserted exactly once under each index, never removed or mutated — and
the multiset of all records in `ByRedactor` equals the multiset of all
records in `ByFile` (both equal the appended records). -/
theorem ledger_indices_same_multiset (rs : List Redaction) :
    ((∀ k, (applyCommits rs).ByRedactor k
        = rs.filter (fun r => r.RedactorName == k)) ∧
     (∀ f, (applyCommits rs).ByFile f = rs.filter (fun r => r.File == f))) ∧
    (byRedactorFlatten rs).Perm rs ∧
    (byFileFlatten rs).Perm rs ∧
    (byRedactorFlatten rs).Perm (byFileFlatten rs) := by
  have hR : ∀ k, (applyCommits rs).ByRedactor k
      = rs.filter (fun r => r.RedactorName == k) := by
    intro k
    have h := foldl_commit_ByRedactor k rs emptyRedactionList
    have hempty : emptyRedactionList.ByRedactor k = [] := rfl
    rw [hempty, List.nil_append] at h
    exact h
  have hF : ∀ f, (applyCommits rs).ByFile f = rs.filter (fun r => r.File == f) := by
    intro f
    have h := foldl_commit_ByFile f rs emptyRedactionList
    have hempty : emptyRedactionList.ByFile f = [] := rfl
    rw [hempty, List.nil_append] at h
    exact h
  have hpr : (byRedactorFlatten rs).Perm rs := by
    unfold byRedactorFlatten
    have hmap : ((rs.map Redaction.RedactorName).dedup).map (applyCommits rs).ByRedactor
        = ((rs.map Redaction.RedactorName).dedup).map
            (fun k => rs.filter (fun x => x.RedactorName == k)) :=
      List.map_congr_left (fun k _ => hR k)
    rw [hmap]
    exact flatten_filter_perm Redaction.RedactorName rs
  have hpf : (byFileFlatten rs).Perm rs := by
    unfold byFileFlatten
    have hmap : ((rs.map Redaction.File).dedup).map (applyCommits rs).ByFile
        = ((rs.map Redaction.File).dedup).map
            (fun k => rs.filter (fun x => x.File == k)) :=
      List.map_congr_left (fun k _ => hF k)
    rw [hmap]
    exact flatten_filter_perm Redaction.File rs
  exact ⟨⟨hR, hF⟩, hpr, hpf, hpr.trans hpf.symm⟩

/-- Claim C6 (counter-evidence): with every pattern compiling, the rule named
`foo` with two regex entries yields two redactors both named `foo-0` —
`withinRedactNum` is declared "give unique redaction names" but never
incremented, so the names of the redactors built from a single rule are
not pairwise distinct. -/
theorem buildAdditionalRedactors_name_collision :
    (buildAdditionalRedactors envId "p" [some ruleFoo]).toOption.map
        (List.map Redactor.name)
      = some ["foo-0", "foo-0"] := by
  rfl

end Redact
